import Mathlib

/-!
# Verification of the loopy code-generation backend

A shallow embedding, in Lean 4, of the three source files of the repository:

* `loopy/isl.py` — piecewise-affine helpers (`pw_aff_to_aff`,
  `static_extremum_of_pw_aff`, `static_min_of_pw_aff`, `static_max_of_pw_aff`);
* `loopy/codegen/control.py` — the conditional-hoisting loop-nest builder
  (`get_admissible_conditional_inames_for`, `remove_inames_for_shared_hw_axes`,
  `get_required_predicates`, `build_insn_group`);
* `loopy/target/ispc.py` — the ISPC target's local-hardware-axis guards.

Python exceptions are modelled with `Except PyErr`; Python `None` results with
`Option`.  isl objects (sets, affine expressions) are modelled concretely over
finite point lists, so that every definition is executable and theorems can be
checked on concrete inputs.  External collaborators that live outside the three
source files (the bounds-check deriver, the backend emitters, schedule helpers
from `loopy/schedule.py`) are either taken as explicit parameters or modelled
from the specification, as noted on each definition.
-/

/-- The Python exception classes raised by the embedded code.  Only the class
identity matters for the claims; messages are dropped. -/
inductive PyErr : Type
  | runtimeError
  | notImplementedError
  | valueError
  | typeError
  | loopyError
  deriving DecidableEq

/-! ## Piecewise-affine model (`loopy/isl.py`)

An `isl.Aff` is an affine function of finitely many integer variables: a
constant term plus coefficients.  A point of the space is a list of integer
coordinates.  An `isl.PwAff` is a list of pieces, each a (domain, affine
function) pair; isl keeps the piece domains disjoint, but none of the
definitions below depend on that.  An isl set is modelled as the list of its
points; isl's semantic set equality coincides with list equality for the sets
the embedded code compares (a `filter` of a list against the list itself). -/

/-- An affine function: `eval a x = a.const + a.coeffs ⬝ x`.
Embeds `isl.Aff`. -/
structure Aff where
  const : Int
  coeffs : List Int
  deriving DecidableEq

/-- A point of the affine space. -/
abbrev IslPoint := List Int

instance : Nonempty Aff := ⟨⟨0, []⟩⟩

/-- Evaluate an affine function at a point. -/
def Aff.eval (a : Aff) (x : IslPoint) : Int :=
  a.const + ((a.coeffs.zip x).map (fun p => p.1 * p.2)).foldl (· + ·) 0

/-- `isl.Aff.is_cst`: the affine function is a plain constant (all
coefficients zero). -/
def Aff.isCst (a : Aff) : Bool :=
  a.coeffs.all (· = 0)

/-- A piecewise-affine expression: a list of (cell, affine function) pieces.
Embeds `isl.PwAff` (`get_pieces` order is the list order). -/
abbrev PwAff := List (List IslPoint × Aff)

/-- `isl.PwAff.get_aggregate_domain`: the union of the piece domains. -/
def aggregateDomain (pw : PwAff) : List IslPoint :=
  (pw.map Prod.fst).foldr (· ++ ·) []

/-- Evaluate a piecewise-affine expression: the value of the first piece whose
cell contains the point. -/
def pwEval (pw : PwAff) (x : IslPoint) : Option Int :=
  match pw.find? (fun pc => x ∈ pc.1) with
  | some pc => some (pc.2.eval x)
  | none => none

/-- `isl.PwAff.ge_set pw aff`: the subset of the aggregate domain where
`pw ≥ aff` (the affine argument has universal domain). -/
def geSet (pw : PwAff) (a : Aff) : List IslPoint :=
  (aggregateDomain pw).filter (fun x =>
    match pwEval pw x with
    | some v => a.eval x ≤ v
    | none => false)

/-- `isl.PwAff.le_set pw aff`: the subset of the aggregate domain where
`pw ≤ aff`. -/
def leSet (pw : PwAff) (a : Aff) : List IslPoint :=
  (aggregateDomain pw).filter (fun x =>
    match pwEval pw x with
    | some v => v ≤ a.eval x
    | none => false)

/-- Embeds `pw_aff_to_aff` (`loopy/isl.py`, lines 89–105): zero pieces is a
`RuntimeError`; a single piece is returned; several pieces are accepted only
when all of them carry the same affine function (isl `plain_is_equal` is
structural equality), in which case the first is returned; otherwise
`NotImplementedError`. -/
def pwAffToAff : PwAff → Except PyErr Aff
  | [] => .error .runtimeError
  | [p] => .ok p.2
  | p :: ps =>
    if ps.all (fun q => q.2 = p.2) then .ok p.2
    else .error .notImplementedError

/-- Embeds `static_extremum_of_pw_aff` (`loopy/isl.py`, lines 142–156): a
single-piece expression returns its piece unconditionally; otherwise the first
piece (constant-only if requested) whose `set_method` comparison set equals the
aggregate domain is returned; if none qualifies, `ValueError`. -/
def staticExtremumOfPwAff (pw : PwAff) (constantsOnly : Bool)
    (setMethod : PwAff → Aff → List IslPoint) : Except PyErr Aff :=
  match pw with
  | [p] => .ok p.2
  | pieces =>
    match pieces.find? (fun pc =>
        (!constantsOnly || pc.2.isCst) && (setMethod pw pc.2 = aggregateDomain pw)) with
    | some pc => .ok pc.2
    | none => .error .valueError

/-- Embeds `static_min_of_pw_aff` (`loopy/isl.py`, lines 161–163). -/
def staticMinOfPwAff (pw : PwAff) (constantsOnly : Bool) : Except PyErr Aff :=
  staticExtremumOfPwAff pw constantsOnly geSet

/-- Embeds `static_max_of_pw_aff` (`loopy/isl.py`, lines 165–167). -/
def staticMaxOfPwAff (pw : PwAff) (constantsOnly : Bool) : Except PyErr Aff :=
  staticExtremumOfPwAff pw constantsOnly leSet

/-! ## Kernel and schedule model (`loopy/schedule.py` interface, `loopy/kernel`)

The schedule is the flat, already-validated sequence of items described in the
spec: `EnterLoop`/`LeaveLoop` pairs are properly nested; `Barrier` and
`RunInstruction` are the leaves.  Iname tags follow `loopy/kernel/data.py`:
`HardwareParallelTag` covers the group- and local-axis tags, and `tag.key`
distinguishes the physical hardware axis (kind and axis number). -/

/-- One schedule item (`loopy/schedule.py` data contract, spec section 3). -/
inductive SchedItem : Type
  | enterLoop (iname : String)
  | leaveLoop (iname : String)
  | barrier
  | runInstruction (insnId : String)
  deriving DecidableEq

/-- An iname tag (`loopy/kernel/data.py`): sequential tags, and the two
hardware-parallel tag families with their axis number. -/
inductive InameTag : Type
  | unroll
  | unrolledIlp
  | loopedIlp
  | forceSequential
  | groupIdx (axis : Nat)
  | localIdx (axis : Nat)
  deriving DecidableEq

/-- `isinstance(tag, HardwareParallelTag)`. -/
def InameTag.isHardwareParallel : InameTag → Bool
  | .groupIdx _ => true
  | .localIdx _ => true
  | _ => false

/-- `isinstance(tag, LocalIndexTag)`. -/
def InameTag.isLocalIndex : InameTag → Bool
  | .localIdx _ => true
  | _ => false

/-- `tag.key` for a hardware-parallel tag: the physical hardware axis it maps
to — the tag family (`true` for local) together with the axis number.
`none` for sequential tags, which carry no hardware axis. -/
def InameTag.hwKey : InameTag → Option (Bool × Nat)
  | .groupIdx a => some (false, a)
  | .localIdx a => some (true, a)
  | _ => none

/-- The part of a loopy kernel the embedded functions read: the schedule,
the `iname_to_tag` mapping (an association list; untagged inames are simply
absent), and each instruction's predicate set (`id_to_insn[id].predicates`). -/
structure Kernel where
  schedule : List SchedItem
  inameTags : List (String × InameTag)
  insnPreds : String → Finset String

/-- `kernel.iname_to_tag.get(iname)`. -/
def Kernel.tagOf (k : Kernel) (iname : String) : Option InameTag :=
  k.inameTags.lookup iname

/-- The hardware-axis key of an iname: `some key` exactly when the iname is
tagged with a hardware-parallel tag. -/
def Kernel.hwKeyOf (k : Kernel) (iname : String) : Option (Bool × Nat) :=
  match k.tagOf iname with
  | some t => t.hwKey
  | none => none

/-- Modelled from the spec: `generate_sub_sched_items` is in
`loopy/schedule.py`, which is not part of the sources.  Spec section 4.2,
leaf enumeration: all `RunInstruction`/`Barrier` leaves within the subtree
rooted at a position, descending into nested loops but not past the subtree
boundary.  This helper walks the items after an `EnterLoop`, keeping the
leaves at every nesting level and stopping at the `LeaveLoop` that closes the
opened loop. -/
def collectLeaves : List SchedItem → Nat → List SchedItem
  | [], _ => []
  | item :: rest, level =>
    match item with
    | .enterLoop _ => collectLeaves rest (level + 1)
    | .leaveLoop _ =>
      match level with
      | 0 => []
      | lvl + 1 => collectLeaves rest lvl
    | it => it :: collectLeaves rest level

/-- Modelled from the spec: the leaf enumeration of spec section 4.2 at a
schedule position.  At an `EnterLoop` it is the leaves of the loop body; at
any other (in-range) position it is that single item, mirroring the
enumerator's fallback branch.  An out-of-range position gives the empty
enumeration (Python would raise `IndexError`; the theorems below only use
in-range positions). -/
def subSchedLeaves (schedule : List SchedItem) (schedIndex : Nat) : List SchedItem :=
  match schedule.get? schedIndex with
  | none => []
  | some (.enterLoop _) => collectLeaves (schedule.drop (schedIndex + 1)) 0
  | some it => [it]

/-- Modelled from the spec: `find_active_inames_at` is in
`loopy/schedule.py`, which is not part of the sources.  Spec section 4.2: the
inames whose `EnterLoop` encloses the position and whose `LeaveLoop` has not
yet occurred — maintained as a stack over the items before the position. -/
def activeStack (items : List SchedItem) : List String :=
  items.foldl (fun st it =>
    match it with
    | .enterLoop n => n :: st
    | .leaveLoop _ => st.tail
    | _ => st) []

/-- Modelled from the spec: the set of active inames at a position
(spec section 4.2). -/
def findActiveInamesAt (k : Kernel) (schedIndex : Nat) : Finset String :=
  (activeStack (k.schedule.take schedIndex)).toFinset

/-- Modelled from the spec: `has_barrier_within` is in `loopy/schedule.py`,
which is not part of the sources.  Spec section 4.2: true when a `Barrier`
occurs anywhere in the subtree rooted at the position (including nested
loops). -/
def hasBarrierWithin (k : Kernel) (schedIndex : Nat) : Bool :=
  (subSchedLeaves k.schedule schedIndex).any (fun it => it = .barrier)

/-- Embeds `get_admissible_conditional_inames_for`
(`loopy/codegen/control.py`, lines 36–53): start from the active inames, then
add every hardware-parallel-tagged iname of the kernel, except a
local-axis-tagged iname when a barrier occurs within the subtree. -/
def getAdmissibleConditionalInamesFor (k : Kernel) (schedIndex : Nat) :
    Finset String :=
  let hasBarrier := hasBarrierWithin k schedIndex
  k.inameTags.foldl (fun res nt =>
      if nt.2.isHardwareParallel && (!hasBarrier || !nt.2.isLocalIndex) then
        insert nt.1 res
      else res)
    (findActiveInamesAt k schedIndex)

/-- A condition iname is dropped by `remove_inames_for_shared_hw_axes` when it
has a hardware-parallel tag whose key is used by two or more members of the
condition set, i.e. whose key belongs to the source's `multi_use_keys`. -/
def isMultiUseHwAxisIname (k : Kernel) (condInames : Finset String)
    (n : String) : Bool :=
  match k.hwKeyOf n with
  | none => false
  | some key => decide (1 < (condInames.filter (fun m => k.hwKeyOf m = some key)).card)

/-- Embeds `remove_inames_for_shared_hw_axes` (`loopy/codegen/control.py`,
lines 102–130).  The source builds the map from each hardware-axis key to the
condition inames using it and drops every iname whose key has two or more
users; an iname is such a user exactly when `isMultiUseHwAxisIname` holds. -/
def removeInamesForSharedHwAxes (k : Kernel) (condInames : Finset String) :
    Finset String :=
  condInames.filter (fun n => isMultiUseHwAxisIname k condInames n = false)

/-- The predicate set contributed by one leaf in `get_required_predicates`:
a `Barrier` contributes the empty set, a `RunInstruction` its instruction's
predicates, and any other item is the source's `RuntimeError` branch. -/
def leafPredsOf (k : Kernel) : SchedItem → Except PyErr (Finset String)
  | .barrier => .ok ∅
  | .runInstruction insnId => .ok (k.insnPreds insnId)
  | _ => .error .runtimeError

/-- Embeds `get_required_predicates` (`loopy/codegen/control.py`, lines
133–149): fold the intersection of the leaves' predicate sets over the
subtree, starting from `None` — a subtree with no leaves therefore yields
`none`, not the empty set. -/
def getRequiredPredicates (k : Kernel) (schedIndex : Nat) :
    Except PyErr (Option (Finset String)) :=
  (subSchedLeaves k.schedule schedIndex).foldlM (fun acc it => do
      let p ← leafPredsOf k it
      match acc with
      | none => pure (some p)
      | some r => pure (some (r ∩ p)))
    none

/-! ## The conditional-hoisting builder (`loopy/codegen/control.py`, `build_loop_nest`)

`build_insn_group` is a closure inside `build_loop_nest`.  Its external
collaborators — `find_used_inames_within` (from `loopy/schedule.py`),
`get_bounds_checks` (from `loopy/codegen/bounds.py`), the space-alignment and
set operations of isl, the leaf code generator's backend hooks and
`wrap_in_if`/`gen_code_block` — are not part of the sources; they are taken as
an explicit parameter record `CodegenOps`, with types `Cns` (an isl
constraint), `ISet` (an isl set) and `Code` (an emitted code block) abstract.
The codegen state is the pair of spec section 3: implemented domain and
implemented predicate set, with persistent (copy-on-write) narrowing. -/

/-- The per-sibling record of `build_loop_nest` pass 2
(`loopy/codegen/control.py`, lines 188–202). -/
structure ScheduleIndexInfo where
  scheduleIndex : Nat
  admissibleCondInames : Finset String
  requiredPredicates : Finset String
  deriving DecidableEq

/-- The codegen state (spec section 3): the implemented domain and the
implemented predicate set.  The backend handle plays no role in the claims. -/
structure CodegenState (ISet : Type) where
  implementedDomain : ISet
  implementedPredicates : Finset String

/-- `codegen_state.intersect(check_set)`: narrow the implemented domain,
producing a new state (spec sections 3 and 4.6). -/
def CodegenState.intersect {ISet : Type} (st : CodegenState ISet)
    (interSet : ISet → ISet → ISet) (s : ISet) : CodegenState ISet :=
  { st with implementedDomain := interSet st.implementedDomain s }

/-- The external collaborators consumed by `build_insn_group`, per the
interface contracts of spec section 6:

* `usedInamesWithin` — `find_used_inames_within(kernel, sched_index)`;
* `getBoundsChecks` — `get_bounds_checks` applied at an implemented domain
  and a candidate iname set (the `align_spaces`/`get_inames_domain` plumbing
  of `BoundsCheckCache.__call__` is folded in); `none` is the
  infeasible-marker of the contract, a list is the derived constraints;
* `univWith` — `isl.BasicSet.universe(cns.get_space()).add_constraint(cns)`;
* `interSet` — `isl.align_two` followed by `intersect`;
* `isEmptySet` — `check_set.is_empty()`;
* `genLeaf` — `generate_code_for_sched_index` at a `RunInstruction`,
  `Barrier` or `EnterLoop` sibling (its backend hooks are out of scope);
  `none` is Python `None`, which the caller turns into no code;
* `cnsToCode` — `constraint_to_code(ccm, cns)`;
* `wrapInIf` / `genCodeBlock` — `wrap_in_if` and `gen_code_block`. -/
structure CodegenOps (Cns ISet Code : Type) where
  usedInamesWithin : Nat → Finset String
  getBoundsChecks : ISet → Finset String → Option (List Cns)
  univWith : Cns → ISet
  interSet : ISet → ISet → ISet
  isEmptySet : ISet → Bool
  genLeaf : Nat → CodegenState ISet → Option Code
  cnsToCode : Cns → String
  wrapInIf : List String → Code → Code
  genCodeBlock : List Code → Code

/-- Embeds `BoundsCheckCache.__call__` (`loopy/codegen/control.py`, lines
215–229): an empty candidate iname set needs no check; otherwise the bounds
checks are derived from the kernel domain at the implemented domain
(memoization is behaviourally transparent for a pure function). -/
def boundsCheckCache {Cns ISet Code : Type} (ops : CodegenOps Cns ISet Code)
    (implDom : ISet) (checkInames : Finset String) : Option (List Cns) :=
  if checkInames = ∅ then some [] else ops.getBoundsChecks implDom checkInames

/-- `used_inames` of the candidate group (`loopy/codegen/control.py`, lines
291–296): the union of `find_used_inames_within` over the first
`candidateGroupLength` entries. -/
def usedInamesUnion {Cns ISet Code : Type} (ops : CodegenOps Cns ISet Code)
    (entries : List ScheduleIndexInfo) (candidateGroupLength : Nat) : Finset String :=
  ((entries.take candidateGroupLength).map
    (fun si => ops.usedInamesWithin si.scheduleIndex)).foldl (· ∪ ·) ∅

/-- The bounds checks computed for one candidate group length, given the
iname set accumulated by the search loop at that length
(`loopy/codegen/control.py`, lines 300–303). -/
def boundsChecksAt {Cns ISet Code : Type} (k : Kernel)
    (ops : CodegenOps Cns ISet Code) (implDom : ISet)
    (entries : List ScheduleIndexInfo) (inames : Finset String)
    (candidateGroupLength : Nat) : Option (List Cns) :=
  boundsCheckCache ops implDom
    (removeInamesForSharedHwAxes k (inames ∩ usedInamesUnion ops entries candidateGroupLength))

/-- `sched_index_info_entries[i]`, as a total function: the search loop only
reads in-range indices, so the default is never consulted. -/
def getEntry (entries : List ScheduleIndexInfo) (i : Nat) : ScheduleIndexInfo :=
  (entries.get? i).getD ⟨0, ∅, ∅⟩

/-- Embeds the hoist-search loop of `build_insn_group`
(`loopy/codegen/control.py`, lines 273–314): starting at candidate length
`cgl` with the running admissible-iname and outstanding-predicate
intersections, record one option per usable candidate length.  Lengths in
`doneGroupLengths` are skipped wholesale — the running intersections are not
updated for them, exactly as the source's `continue` does.  `steps` is the
remaining iteration budget, always at least `entries.length + 1 - cgl`
at the call sites, so the loop always ends because `cgl` passed the entry
count, never because the budget ran out. -/
def hoistLoop {Cns ISet Code : Type} [DecidableEq Cns] (k : Kernel)
    (ops : CodegenOps Cns ISet Code) (implDom : ISet)
    (entries : List ScheduleIndexInfo) (doneGroupLengths : Finset Nat) :
    Nat → Nat → Finset String → Finset String →
    List (Nat × Option (List Cns) × Finset String)
  | 0, _, _, _ => []
  | steps + 1, cgl, inames, preds =>
    if 1 ≤ cgl ∧ cgl ≤ entries.length then
      if cgl ∈ doneGroupLengths then
        hoistLoop k ops implDom entries doneGroupLengths steps (cgl + 1) inames preds
      else
        let e := getEntry entries (cgl - 1)
        let inames2 := inames ∩ e.admissibleCondInames
        let preds2 := preds ∩ e.requiredPredicates
        let bc := boundsChecksAt k ops implDom entries inames2 cgl
        let rest :=
          hoistLoop k ops implDom entries doneGroupLengths steps (cgl + 1) inames2 preds2
        if bc ≠ some [] ∨ preds2 ≠ ∅ ∨ cgl = 1 then (cgl, bc, preds2) :: rest else rest
    else []

/-- The `found_hoists` list of `build_insn_group`
(`loopy/codegen/control.py`, lines 257–314): the search loop started at
candidate length 1 from the first entry's admissible inames and its
outstanding predicates (required minus already implemented), with an
iteration budget of one step per entry. -/
def foundHoists {Cns ISet Code : Type} [DecidableEq Cns] (k : Kernel)
    (ops : CodegenOps Cns ISet Code) (st : CodegenState ISet)
    (entries : List ScheduleIndexInfo) (doneGroupLengths : Finset Nat) :
    List (Nat × Option (List Cns) × Finset String) :=
  match entries with
  | [] => []
  | e0 :: _ =>
    hoistLoop k ops st.implementedDomain entries doneGroupLengths entries.length 1
      e0.admissibleCondInames (e0.requiredPredicates \ st.implementedPredicates)

/-- Embeds `max(found_hoists)` (`loopy/codegen/control.py`, line 319).
Python compares the `(length, bounds, preds)` tuples lexicographically and the
recorded lengths are pairwise distinct, so the maximum is the entry with the
largest candidate length; on (impossible) ties the earlier entry is kept, as
Python's `max` keeps the first maximal element.  An empty list is Python's
`ValueError` from `max`, handled at the call site. -/
def pickMax {α : Type} : List (Nat × α) → Option (Nat × α)
  | [] => none
  | h :: t =>
    match pickMax t with
    | none => some h
    | some m => if h.1 < m.1 then some m else some h

/-- Embeds the `check_set` combination loop (`loopy/codegen/control.py`,
lines 321–330): each constraint becomes the universe set restricted by it,
and the sets are intersected left to right; no constraints leave `check_set`
as Python `None`. -/
def combineChecks {Cns ISet Code : Type} (ops : CodegenOps Cns ISet Code)
    (cnss : List Cns) : Option ISet :=
  cnss.foldl (fun acc cns =>
    match acc with
    | none => some (ops.univWith cns)
    | some s => some (ops.interSet s (ops.univWith cns))) none

/-- The `is_empty` flag of `build_insn_group` (`loopy/codegen/control.py`,
lines 332–337): `False` when there is no check set, else the emptiness of the
combined check set. -/
def checkSetIsEmpty {Cns ISet Code : Type} (ops : CodegenOps Cns ISet Code)
    (cnss : List Cns) : Bool :=
  match combineChecks ops cnss with
  | none => false
  | some cs => ops.isEmptySet cs

/-- The `new_codegen_state` of `build_insn_group`
(`loopy/codegen/control.py`, lines 332–342): the caller's state narrowed by
the combined check set (when there is one) and, when the chosen predicate set
is non-empty, with the implemented predicates widened by it. -/
def narrowedState {Cns ISet Code : Type} (ops : CodegenOps Cns ISet Code)
    (st : CodegenState ISet) (cnss : List Cns) (predChecks : Finset String) :
    CodegenState ISet :=
  let st2 :=
    match combineChecks ops cnss with
    | none => st
    | some cs => st.intersect ops.interSet cs
  if predChecks ≠ ∅ then
    { st2 with implementedPredicates := st2.implementedPredicates ∪ predChecks }
  else st2

/-- Sequence the group's result with the result for the remaining siblings
(`return result + build_insn_group(...)`): an exception in the group
propagates before the tail is consulted; `none` (out of fuel in this
embedding) otherwise propagates from either side. -/
def appendGroup {Code : Type} (g t : Option (Except PyErr (List Code))) :
    Option (Except PyErr (List Code)) :=
  match g with
  | none => none
  | some (.error e) => some (.error e)
  | some (.ok code) =>
    match t with
    | none => none
    | some (.error e) => some (.error e)
    | some (.ok tail) => some (.ok (code ++ tail))

/-- Embeds `build_insn_group` (`loopy/codegen/control.py`, lines 231–371),
with an explicit fuel parameter standing for the call depth: `none` means the
fuel ran out (the termination theorem shows a fuel of twice the entry count
plus two always suffices), `some (.error e)` a Python exception, and
`some (.ok code)` the returned code list.

Mirrors the source: empty entries return no code; otherwise the hoist search
runs and the largest recorded option is chosen (`max` on an empty list raises
`ValueError`; an infeasible bounds marker chosen as `bounds_checks` makes the
`for cns in bounds_checks` loop raise `TypeError`, since Python cannot
iterate `None`).  If the combined check set is provably empty the group is
dead and contributes no code, but the remaining siblings are still processed
— with the caller's state and a reset `done_group_lengths`.  A length-1
group dispatches the single leaf under the narrowed state (a `None` result
becomes no code); a longer group recurses on its own entries with the chosen
length added to `done_group_lengths`.  A group with bounds checks or
predicate checks is wrapped in a conditional. -/
def buildInsnGroupF {Cns ISet Code : Type} [DecidableEq Cns] (k : Kernel)
    (ops : CodegenOps Cns ISet Code) :
    Nat → List ScheduleIndexInfo → CodegenState ISet → Finset Nat →
    Option (Except PyErr (List Code))
  | 0, _, _, _ => none
  | fuel + 1, entries, codegenState, doneGroupLengths =>
    match entries with
    | [] => some (.ok [])
    | e0 :: _ =>
      match pickMax (foundHoists k ops codegenState entries doneGroupLengths) with
      | none => some (.error .valueError)
      | some (groupLength, boundsChecks, predChecks) =>
        match boundsChecks with
        | none => some (.error .typeError)
        | some cnss =>
          appendGroup
            (if checkSetIsEmpty ops cnss then some (.ok [])
             else
               match
                 (if groupLength = 1 then
                    some (Except.ok
                      (match ops.genLeaf e0.scheduleIndex
                          (narrowedState ops codegenState cnss predChecks) with
                      | none => []
                      | some c => [c]))
                  else
                    buildInsnGroupF k ops fuel (entries.take groupLength)
                      (narrowedState ops codegenState cnss predChecks)
                      (insert groupLength doneGroupLengths)) with
               | none => none
               | some (.error e) => some (.error e)
               | some (.ok code) =>
                 if cnss ≠ [] ∨ predChecks ≠ ∅ then
                   some (.ok [ops.wrapInIf
                     (cnss.map ops.cnsToCode ++ predChecks.sort (· ≤ ·))
                     (ops.genCodeBlock code)])
                 else some (.ok code))
            (buildInsnGroupF k ops fuel (entries.drop groupLength) codegenState ∅)

/-! ## ISPC target guards (`loopy/target/ispc.py`) -/

/-- Embeds `LoopyISPCCodeMapper.map_local_hw_index` (`loopy/target/ispc.py`,
lines 51–55): local axis 0 maps to the lockstep `programIndex`; any other
local axis is a `LoopyError` ("ISPC only supports one local axis").  The
index C type is `_get_index_ctype()`'s result, precomputed by the caller. -/
def mapLocalHwIndex (indexCtype : String) (axis : Nat) : Except PyErr String :=
  if axis = 0 then .ok ("(varying " ++ indexCtype ++ ") programIndex")
  else .error .loopyError

/-- Embeds the local-grid-size check of `ISPCTarget.generate_code`
(`loopy/target/ispc.py`, lines 213–219): when there is more than one local
axis, every axis beyond the first must have size 1, otherwise `LoopyError`.
The sizes are the kernel's local grid sizes as integers. -/
def ispcCheckLocalSizes (lsize : List Int) : Except PyErr Unit :=
  match (lsize.drop 1).find? (fun s => s != 1) with
  | some _ => .error .loopyError
  | none => .ok ()

/-! ## Semantics lemmas for the piecewise-affine model -/

set_option synthInstance.maxHeartbeats 800000 in
/-- A point is in the aggregate domain exactly when some piece's cell
contains it. -/
theorem mem_aggregateDomain {pw : PwAff} {x : IslPoint} :
    x ∈ aggregateDomain pw ↔ ∃ pc ∈ pw, x ∈ pc.1 := by
  induction pw with
  | nil => simp [aggregateDomain]
  | cons p ps ih =>
    simp only [aggregateDomain, List.map_cons, List.foldr_cons, List.mem_append] at *
    constructor
    · rintro (h | h)
      · exact ⟨p, List.mem_cons_self p ps, h⟩
      · rcases ih.mp h with ⟨pc, h1, h2⟩
        exact ⟨pc, List.mem_cons_of_mem _ h1, h2⟩
    · rintro ⟨pc, h1, h2⟩
      rcases List.mem_cons.mp h1 with h1 | h1
      · subst h1; exact Or.inl h2
      · exact Or.inr (ih.mpr ⟨pc, h1, h2⟩)

/-- Piecewise evaluation succeeds on every point of the aggregate domain. -/
theorem pwEval_isSome_of_mem {pw : PwAff} {x : IslPoint}
    (h : x ∈ aggregateDomain pw) : ∃ v, pwEval pw x = some v := by
  rcases mem_aggregateDomain.mp h with ⟨pc, hpc, hx⟩
  unfold pwEval
  cases hf : pw.find? (fun pc => decide (x ∈ pc.1)) with
  | some pc2 => exact ⟨pc2.2.eval x, rfl⟩
  | none =>
    exfalso
    have := List.find?_eq_none.mp hf _ hpc
    simp [hx] at this

/-- The affine function `a` is a static lower bound for `pw`: at every point
of the aggregate domain the piecewise value is at least `a`'s value. -/
def dominatesBelow (pw : PwAff) (a : Aff) : Prop :=
  ∀ x ∈ aggregateDomain pw, ∀ v, pwEval pw x = some v → a.eval x ≤ v

/-- The affine function `a` is a static upper bound for `pw`. -/
def dominatesAbove (pw : PwAff) (a : Aff) : Prop :=
  ∀ x ∈ aggregateDomain pw, ∀ v, pwEval pw x = some v → v ≤ a.eval x

/-- `ge_set` comparing equal to the aggregate domain is exactly static lower
domination. -/
theorem geSet_eq_aggregateDomain_iff {pw : PwAff} {a : Aff} :
    geSet pw a = aggregateDomain pw ↔ dominatesBelow pw a := by
  unfold geSet dominatesBelow
  rw [List.filter_eq_self]
  constructor
  · intro h x hx v hv
    have := h x hx
    rw [hv] at this
    simpa using this
  · intro h x hx
    rcases pwEval_isSome_of_mem hx with ⟨v, hv⟩
    rw [hv]
    simpa using h x hx v hv

/-- `le_set` comparing equal to the aggregate domain is exactly static upper
domination. -/
theorem leSet_eq_aggregateDomain_iff {pw : PwAff} {a : Aff} :
    leSet pw a = aggregateDomain pw ↔ dominatesAbove pw a := by
  unfold leSet dominatesAbove
  rw [List.filter_eq_self]
  constructor
  · intro h x hx v hv
    have := h x hx
    rw [hv] at this
    simpa using this
  · intro h x hx
    rcases pwEval_isSome_of_mem hx with ⟨v, hv⟩
    rw [hv]
    simpa using h x hx v hv

/-- A single-piece expression evaluates to its only piece's value. -/
theorem pwEval_single {p : List IslPoint × Aff} {x : IslPoint} {v : Int}
    (h : pwEval [p] x = some v) : v = p.2.eval x := by
  unfold pwEval at h
  split at h
  next pc hf =>
    have hp : pc = p := by simpa using List.mem_of_find?_eq_some hf
    subst hp
    exact (Option.some_inj.mp h).symm
  next => simp at h

/-- Shared shape of `static_extremum_of_pw_aff`'s contract, generic in the
comparison method: whatever it returns is one of the pieces, dominating when
there are at least two pieces (a single piece dominates trivially), constant
when `constants_only` is set and the single-piece shortcut was not taken; it
raises exactly when there are not exactly one piece and no eligible piece
dominates. -/
theorem staticExtremum_spec_general (pw : PwAff) (c : Bool)
    (setMethod : PwAff → Aff → List IslPoint) (dom : Aff → Prop)
    (hiff : ∀ a, setMethod pw a = aggregateDomain pw ↔ dom a)
    (hsingle : ∀ p, pw = [p] → dom p.2) :
    (∀ a, staticExtremumOfPwAff pw c setMethod = .ok a →
      (∃ pc ∈ pw, pc.2 = a) ∧ dom a ∧
      (c = true → pw.length ≠ 1 → a.isCst = true)) ∧
    ((∃ e, staticExtremumOfPwAff pw c setMethod = .error e) ↔
      (pw.length ≠ 1 ∧ ∀ pc ∈ pw, (c = true → pc.2.isCst = true) → ¬ dom pc.2)) := by
  match pw with
  | [] =>
    refine ⟨fun a h => by simp [staticExtremumOfPwAff, List.find?] at h, ?_⟩
    constructor
    · intro _
      exact ⟨by simp, by simp⟩
    · intro _
      exact ⟨.valueError, by simp [staticExtremumOfPwAff, List.find?]⟩
  | [p] =>
    refine ⟨?_, ?_⟩
    · intro a h
      simp only [staticExtremumOfPwAff] at h
      cases h
      exact ⟨⟨p, by simp, rfl⟩, hsingle p rfl, fun _ h1 => absurd rfl h1⟩
    · constructor
      · rintro ⟨e, h⟩
        simp [staticExtremumOfPwAff] at h
      · rintro ⟨h1, _⟩
        exact absurd rfl h1
  | p :: q :: ps =>
    have hlen : (p :: q :: ps : PwAff).length ≠ 1 := by simp
    cases hf : (p :: q :: ps : PwAff).find? (fun pc =>
        (!c || pc.2.isCst) && decide (setMethod (p :: q :: ps) pc.2 = aggregateDomain (p :: q :: ps))) with
    | some pc =>
      have hmem := List.mem_of_find?_eq_some hf
      have hpred := List.find?_some hf
      rw [Bool.and_eq_true] at hpred
      have hdom : dom pc.2 := (hiff pc.2).mp (by simpa using hpred.2)
      have hcst : c = true → pc.2.isCst = true := by
        intro hc
        rcases Bool.or_eq_true _ _ |>.mp hpred.1 with h | h
        · rw [hc] at h; simp at h
        · exact h
      refine ⟨?_, ?_⟩
      · intro a h
        simp only [staticExtremumOfPwAff, hf] at h
        cases h
        exact ⟨⟨pc, hmem, rfl⟩, hdom, fun hc _ => hcst hc⟩
      · constructor
        · rintro ⟨e, h⟩
          simp [staticExtremumOfPwAff, hf] at h
        · rintro ⟨_, hall⟩
          exact absurd hdom (hall pc hmem hcst)
    | none =>
      refine ⟨?_, ?_⟩
      · intro a h
        simp [staticExtremumOfPwAff, hf] at h
      · constructor
        · rintro ⟨e, _⟩
          refine ⟨hlen, fun pc hmem helig hdom => ?_⟩
          have hnone := List.find?_eq_none.mp hf _ hmem
          rw [Bool.and_eq_true] at hnone
          push_neg at hnone
          have helig2 : (!c || pc.2.isCst) = true := by
            cases c with
            | false => simp
            | true => simpa using helig rfl
          exact hnone helig2 (decide_eq_true ((hiff pc.2).mpr hdom))
        · intro _
          exact ⟨.valueError, by simp [staticExtremumOfPwAff, hf]⟩

/-- The unique piece of a single-piece expression is a static lower bound. -/
theorem dominatesBelow_single (p : List IslPoint × Aff) : dominatesBelow [p] p.2 := by
  intro x _ v hv
  rw [pwEval_single hv]

/-- The unique piece of a single-piece expression is a static upper bound. -/
theorem dominatesAbove_single (p : List IslPoint × Aff) : dominatesAbove [p] p.2 := by
  intro x _ v hv
  rw [pwEval_single hv]

/-- **C8** (amended).  `static_min_of_pw_aff` / `static_max_of_pw_aff` return
a piece of the expression that is a global minimum (resp. maximum) over the
full aggregate domain; with `constants_only` set the returned piece is
constant *provided the expression has more than one piece* — a single-piece
expression is returned unconditionally, bypassing the constants-only
restriction (see the counterexample); the "static minimum/maximum was not
found" error is raised exactly when the expression does not have exactly one
piece and no piece — among the constant ones when `constants_only` is set —
dominates the whole domain. -/
theorem static_min_max_of_pw_aff_spec (pw : PwAff) (c : Bool) :
    (∀ a, staticMinOfPwAff pw c = .ok a →
      (∃ pc ∈ pw, pc.2 = a) ∧ dominatesBelow pw a ∧
      (c = true → pw.length ≠ 1 → a.isCst = true)) ∧
    ((∃ e, staticMinOfPwAff pw c = .error e) ↔
      (pw.length ≠ 1 ∧ ∀ pc ∈ pw, (c = true → pc.2.isCst = true) →
        ¬ dominatesBelow pw pc.2)) ∧
    (∀ a, staticMaxOfPwAff pw c = .ok a →
      (∃ pc ∈ pw, pc.2 = a) ∧ dominatesAbove pw a ∧
      (c = true → pw.length ≠ 1 → a.isCst = true)) ∧
    ((∃ e, staticMaxOfPwAff pw c = .error e) ↔
      (pw.length ≠ 1 ∧ ∀ pc ∈ pw, (c = true → pc.2.isCst = true) →
        ¬ dominatesAbove pw pc.2)) := by
  have hmin := staticExtremum_spec_general pw c geSet (dominatesBelow pw)
    (fun _ => geSet_eq_aggregateDomain_iff)
    (fun p hp => by subst hp; exact dominatesBelow_single p)
  have hmax := staticExtremum_spec_general pw c leSet (dominatesAbove pw)
    (fun _ => leSet_eq_aggregateDomain_iff)
    (fun p hp => by subst hp; exact dominatesAbove_single p)
  exact ⟨hmin.1, hmin.2, hmax.1, hmax.2⟩

/-- A non-constant affine function on a single-piece expression.  Its value
is the first coordinate of the point. -/
def cexAffC8 : Aff := ⟨0, [1]⟩

/-- A single-piece expression whose only piece is not constant. -/
def cexPwC8 : PwAff := [([[0], [1]], cexAffC8)]

/-- **C8** counterexample.  With `constants_only` set, the claim says only
constant pieces are considered; but `static_min_of_pw_aff` on a single-piece
expression returns its (here non-constant) piece without consulting
`constants_only` — the single-piece shortcut of
`static_extremum_of_pw_aff` (`loopy/isl.py`, lines 144–145) runs before the
constants-only filter. -/
theorem static_extremum_constants_only_cex :
    staticMinOfPwAff cexPwC8 true = .ok cexAffC8 ∧ cexAffC8.isCst = false := by
  constructor <;> rfl

/-- A constant affine function dominating `witPwC8` from below. -/
def witAffC8 : Aff := ⟨0, []⟩

/-- A two-piece expression whose first piece is the constant 0 and whose
second piece is the constant 1. -/
def witPwC8 : PwAff := [([[0]], witAffC8), ([[1]], ⟨1, []⟩)]

/-- Witness for **C8**: on a concrete two-piece expression with
`constants_only` set, the returned static minimum is a constant piece that
dominates the whole domain. -/
theorem static_min_max_of_pw_aff_spec_witness :
    (∃ pc ∈ witPwC8, pc.2 = witAffC8) ∧ dominatesBelow witPwC8 witAffC8 ∧
      (true = true → witPwC8.length ≠ 1 → witAffC8.isCst = true) :=
  (static_min_max_of_pw_aff_spec witPwC8 true).1 witAffC8 (by rfl)

/-- **C9**.  `pw_aff_to_aff` returns the unique piece of a single-piece
expression; returns the first piece when all pieces carry pairwise equal
affine functions; raises `RuntimeError` on zero pieces and
`NotImplementedError` on genuinely distinct pieces — and these are the only
failure cases. -/
theorem pw_aff_to_aff_spec (pw : PwAff) :
    (pw = [] → pwAffToAff pw = .error .runtimeError) ∧
    (∀ p ps, pw = p :: ps → (∀ q ∈ pw, ∀ r ∈ pw, q.2 = r.2) →
      pwAffToAff pw = .ok p.2) ∧
    ((∃ e, pwAffToAff pw = .error e) ↔
      (pw = [] ∨ ∃ q ∈ pw, ∃ r ∈ pw, q.2 ≠ r.2)) := by
  match pw with
  | [] =>
    refine ⟨fun _ => rfl, fun p ps h => by simp at h, ?_⟩
    constructor
    · intro _
      exact Or.inl rfl
    · intro _
      exact ⟨.runtimeError, rfl⟩
  | [p] =>
    refine ⟨fun h => by simp at h, ?_, ?_⟩
    · intro p0 ps0 h _
      rw [List.cons_eq_cons] at h
      obtain ⟨h1, h2⟩ := h
      subst h1
      rfl
    · constructor
      · rintro ⟨e, h⟩
        simp [pwAffToAff] at h
      · rintro (h | ⟨q, hq, r, hr, hne⟩)
        · simp at h
        · simp only [List.mem_singleton] at hq hr
          subst hq; subst hr
          exact absurd rfl hne
  | p :: q :: ps =>
    cases hall : (q :: ps).all (fun r => decide (r.2 = p.2)) with
    | true =>
      have hok : pwAffToAff (p :: q :: ps) = .ok p.2 := by
        simp only [pwAffToAff]
        rw [if_pos]
        simpa using hall
      have hequal : ∀ r ∈ (q :: ps), r.2 = p.2 := by
        intro r hr
        have := List.all_eq_true.mp hall r hr
        simpa using this
      refine ⟨fun h => by simp at h, ?_, ?_⟩
      · intro p0 ps0 h _
        rw [List.cons_eq_cons] at h
        obtain ⟨h1, _⟩ := h
        subst h1
        exact hok
      · constructor
        · rintro ⟨e, h⟩
          rw [hok] at h
          simp at h
        · rintro (h | ⟨q0, hq0, r0, hr0, hne⟩)
          · simp at h
          · exfalso
            have hv : ∀ r ∈ p :: q :: ps, r.2 = p.2 := by
              intro r hr
              rcases List.mem_cons.mp hr with h | h
              · subst h; rfl
              · exact hequal r h
            rw [hv q0 hq0, hv r0 hr0] at hne
            exact absurd rfl hne
    | false =>
      obtain ⟨r, hr, hrne⟩ := List.all_eq_false.mp hall
      have hrne2 : r.2 ≠ p.2 := by simpa using hrne
      have herr : pwAffToAff (p :: q :: ps) = .error .notImplementedError := by
        simp only [pwAffToAff]
        rw [if_neg]
        simpa using hall
      refine ⟨fun h => by simp at h, ?_, ?_⟩
      · intro p0 ps0 _ hequal
        exact absurd
          (hequal r (List.mem_cons_of_mem _ hr) p (List.mem_cons_self _ _)) hrne2
      · constructor
        · intro _
          exact Or.inr ⟨r, List.mem_cons_of_mem _ hr, p, List.mem_cons_self _ _, hrne2⟩
        · intro _
          exact ⟨.notImplementedError, herr⟩

/-- The shared affine function of the two-piece witness for C9. -/
def witAffC9 : Aff := ⟨3, [2]⟩

/-- A two-piece expression whose pieces carry equal affine functions. -/
def witPwC9 : PwAff := [([[0]], witAffC9), ([[1], [2]], witAffC9)]

/-- Witness for **C9**: a concrete two-piece expression with pairwise equal
pieces is accepted and its first piece returned. -/
theorem pw_aff_to_aff_spec_witness : pwAffToAff witPwC9 = .ok witAffC9 :=
  (pw_aff_to_aff_spec witPwC9).2.1 ([[0]], witAffC9) [([[1], [2]], witAffC9)]
    rfl (by decide)

/-- **C10**.  The ISPC target accepts exactly one lockstep (local) hardware
axis: mapping a local hardware index succeeds exactly for axis 0, the
local-grid-size check of `generate_code` fails exactly when some local axis
beyond the first has size different from 1, and a single local axis always
passes the size check. -/
theorem ispc_single_local_axis_spec :
    (∀ ct axis, (∃ s, mapLocalHwIndex ct axis = .ok s) ↔ axis = 0) ∧
    (∀ lsize : List Int,
      (∃ e, ispcCheckLocalSizes lsize = .error e) ↔ ∃ s ∈ lsize.drop 1, s ≠ 1) ∧
    (∀ lsize : List Int, lsize.length ≤ 1 → ispcCheckLocalSizes lsize = .ok ()) := by
  refine ⟨?_, ?_, ?_⟩
  · intro ct axis
    constructor
    · rintro ⟨s, h⟩
      by_contra hax
      simp [mapLocalHwIndex, hax] at h
    · intro h
      subst h
      exact ⟨_, rfl⟩
  · intro lsize
    constructor
    · rintro ⟨e, h⟩
      unfold ispcCheckLocalSizes at h
      split at h
      next s hf =>
        exact ⟨s, List.mem_of_find?_eq_some hf, by simpa using List.find?_some hf⟩
      next => simp at h
    · rintro ⟨s, hs, hne⟩
      refine ⟨.loopyError, ?_⟩
      unfold ispcCheckLocalSizes
      cases hf : (lsize.drop 1).find? (fun s => s != 1) with
      | some _ => rfl
      | none =>
        exact absurd (by simpa using List.find?_eq_none.mp hf _ hs) hne
  · intro lsize h
    have hnil : lsize.drop 1 = [] := List.drop_eq_nil_of_le h
    simp [ispcCheckLocalSizes, hnil, List.find?]

/-- Witness for **C10**: a one-axis local grid passes the ISPC size check. -/
theorem ispc_single_local_axis_spec_witness : ispcCheckLocalSizes [4] = .ok () :=
  ispc_single_local_axis_spec.2.2 [4] (by decide)

/-! ## Admissibility and predicate aggregation: the claims on
`get_admissible_conditional_inames_for`, `remove_inames_for_shared_hw_axes`
and `get_required_predicates` -/

/-- Membership in an insert-if fold over an association list. -/
theorem mem_foldl_insert_filter {α : Type} (l : List (String × α))
    (pcond : String × α → Bool) (init : Finset String) (n : String) :
    n ∈ l.foldl (fun res nt => if pcond nt then insert nt.1 res else res) init ↔
      (n ∈ init ∨ ∃ nt ∈ l, pcond nt = true ∧ nt.1 = n) := by
  induction l generalizing init with
  | nil => simp
  | cons h t ih =>
    simp only [List.foldl_cons]
    by_cases hc : pcond h = true
    · rw [if_pos hc, ih]
      simp only [Finset.mem_insert, List.mem_cons]
      constructor
      · rintro ((h1 | h1) | ⟨nt, h1, h2, h3⟩)
        · exact Or.inr ⟨h, Or.inl rfl, hc, h1.symm⟩
        · exact Or.inl h1
        · exact Or.inr ⟨nt, Or.inr h1, h2, h3⟩
      · rintro (h1 | ⟨nt, h1 | h1, h2, h3⟩)
        · exact Or.inl (Or.inr h1)
        · subst h1; exact Or.inl (Or.inl h3.symm)
        · exact Or.inr ⟨nt, h1, h2, h3⟩
    · rw [if_neg hc, ih]
      simp only [List.mem_cons]
      constructor
      · rintro (h1 | ⟨nt, h1, h2, h3⟩)
        · exact Or.inl h1
        · exact Or.inr ⟨nt, Or.inr h1, h2, h3⟩
      · rintro (h1 | ⟨nt, h1 | h1, h2, h3⟩)
        · exact Or.inl h1
        · subst h1; exact absurd h2 hc
        · exact Or.inr ⟨nt, h1, h2, h3⟩

/-- **C3**.  `get_admissible_conditional_inames_for` returns exactly the
active inames plus the hardware-parallel-tagged inames of the kernel, minus
the local-axis-tagged additions when a barrier occurs within the subtree;
in particular every active iname (whatever its tag — sequential, unrolled and
ILP inames included) is admissible, and group-axis-tagged inames are always
admissible. -/
theorem get_admissible_conditional_inames_spec (k : Kernel) (i : Nat) :
    (∀ n, n ∈ getAdmissibleConditionalInamesFor k i ↔
      (n ∈ findActiveInamesAt k i ∨
        ∃ t, (n, t) ∈ k.inameTags ∧ t.isHardwareParallel = true ∧
          (t.isLocalIndex = false ∨ hasBarrierWithin k i = false))) ∧
    (∀ n, n ∈ findActiveInamesAt k i → n ∈ getAdmissibleConditionalInamesFor k i) ∧
    (∀ n a, (n, InameTag.groupIdx a) ∈ k.inameTags →
      n ∈ getAdmissibleConditionalInamesFor k i) := by
  have hmain : ∀ n, n ∈ getAdmissibleConditionalInamesFor k i ↔
      (n ∈ findActiveInamesAt k i ∨
        ∃ t, (n, t) ∈ k.inameTags ∧ t.isHardwareParallel = true ∧
          (t.isLocalIndex = false ∨ hasBarrierWithin k i = false)) := by
    intro n
    simp only [getAdmissibleConditionalInamesFor]
    rw [mem_foldl_insert_filter]
    constructor
    · rintro (h1 | ⟨nt, h1, h2, h3⟩)
      · exact Or.inl h1
      · subst h3
        simp only [Bool.and_eq_true, Bool.or_eq_true, Bool.not_eq_true'] at h2
        refine Or.inr ⟨nt.2, ?_, h2.1, h2.2.symm⟩
        simpa using h1
    · rintro (h1 | ⟨t, h1, h2, h3⟩)
      · exact Or.inl h1
      · refine Or.inr ⟨(n, t), h1, ?_, rfl⟩
        simp only [Bool.and_eq_true, Bool.or_eq_true, Bool.not_eq_true']
        exact ⟨h2, h3.symm⟩
  refine ⟨hmain, ?_, ?_⟩
  · intro n h
    exact (hmain n).mpr (Or.inl h)
  · intro n a h
    exact (hmain n).mpr (Or.inr ⟨InameTag.groupIdx a, h, rfl, Or.inl rfl⟩)

/-- A tiny kernel for the C3 witness: one loop containing an instruction and
a barrier; one group-tagged and one local-tagged iname. -/
def witK3 : Kernel :=
  { schedule := [.enterLoop "i", .runInstruction "a", .barrier, .leaveLoop "i"]
    inameTags := [("g", .groupIdx 0), ("l", .localIdx 0)]
    insnPreds := fun _ => ∅ }

/-- Witness for **C3**: in the concrete kernel the group-tagged iname is
admissible at the loop head even though a barrier lies within. -/
theorem get_admissible_conditional_inames_spec_witness :
    "g" ∈ getAdmissibleConditionalInamesFor witK3 0 :=
  (get_admissible_conditional_inames_spec witK3 0).2.2 "g" 0 (by decide)

/-- **C4**.  `remove_inames_for_shared_hw_axes` keeps exactly the inames of
the input whose hardware-axis key (if any) is not used by any other member of
the input; inames without a hardware-parallel tag always survive, and the
result is a subset of the input. -/
theorem remove_inames_shared_hw_spec (k : Kernel) (cond : Finset String) :
    (∀ n, n ∈ removeInamesForSharedHwAxes k cond ↔
      (n ∈ cond ∧ ¬ ∃ key, k.hwKeyOf n = some key ∧
        ∃ m ∈ cond, m ≠ n ∧ k.hwKeyOf m = some key)) ∧
    removeInamesForSharedHwAxes k cond ⊆ cond := by
  constructor
  · intro n
    rw [removeInamesForSharedHwAxes, Finset.mem_filter]
    constructor
    · rintro ⟨hn, hmu⟩
      refine ⟨hn, ?_⟩
      rintro ⟨key, hkey, m, hm, hmn, hmkey⟩
      simp only [isMultiUseHwAxisIname, hkey] at hmu
      have hcard : 1 < (cond.filter (fun x => k.hwKeyOf x = some key)).card := by
        apply Finset.one_lt_card.mpr
        exact ⟨m, Finset.mem_filter.mpr ⟨hm, hmkey⟩,
          n, Finset.mem_filter.mpr ⟨hn, hkey⟩, hmn⟩
      rw [decide_eq_true hcard] at hmu
      exact Bool.noConfusion hmu
    · rintro ⟨hn, hnotshared⟩
      refine ⟨hn, ?_⟩
      cases hkey : k.hwKeyOf n with
      | none => simp [isMultiUseHwAxisIname, hkey]
      | some key =>
        simp only [isMultiUseHwAxisIname, hkey]
        rw [decide_eq_false]
        intro hcard
        obtain ⟨a, ha, b, hb, hab⟩ := Finset.one_lt_card.mp hcard
        obtain ⟨ha1, ha2⟩ := Finset.mem_filter.mp ha
        obtain ⟨hb1, hb2⟩ := Finset.mem_filter.mp hb
        by_cases han : a = n
        · subst han
          exact hnotshared ⟨key, ha2, b, hb1, fun hbn => hab hbn.symm, hb2⟩
        · exact hnotshared ⟨key, hkey, a, ha1, han, ha2⟩
  · exact Finset.filter_subset _ _

/-- A kernel for the C4 witness: two inames on the same local axis, one on a
group axis, one untagged. -/
def witK4 : Kernel :=
  { schedule := []
    inameTags := [("l0", .localIdx 0), ("l1", .localIdx 0), ("g", .groupIdx 0)]
    insnPreds := fun _ => ∅ }

/-- Witness for **C4**: with both sharers of local axis 0 plus a group-tagged
and an untagged iname in the input, exactly the sharers are dropped. -/
theorem remove_inames_shared_hw_spec_witness :
    ("g" ∈ removeInamesForSharedHwAxes witK4 {"l0", "l1", "g", "seq"} ↔
      ("g" ∈ ({"l0", "l1", "g", "seq"} : Finset String) ∧
        ¬ ∃ key, witK4.hwKeyOf "g" = some key ∧
          ∃ m ∈ ({"l0", "l1", "g", "seq"} : Finset String), m ≠ "g" ∧
            witK4.hwKeyOf m = some key)) :=
  (remove_inames_shared_hw_spec witK4 {"l0", "l1", "g", "seq"}).1 "g"

/-- Whether a schedule item is a `LeaveLoop`. -/
def SchedItem.isLeaveLoop : SchedItem → Bool
  | .leaveLoop _ => true
  | _ => false

/-- The predicate set a leaf contributes in `get_required_predicates`:
the empty set for a `Barrier`, the instruction's predicates for a
`RunInstruction` (and the empty set for the non-leaf items, which never occur
among enumerated leaves). -/
def leafPredSet (k : Kernel) : SchedItem → Finset String
  | .runInstruction insnId => k.insnPreds insnId
  | _ => ∅

/-- `collectLeaves` yields only `Barrier`/`RunInstruction` items. -/
theorem collectLeaves_leaves_only :
    ∀ (l : List SchedItem) (lvl : Nat), ∀ it ∈ collectLeaves l lvl,
      it = .barrier ∨ ∃ insnId, it = .runInstruction insnId := by
  intro l
  induction l with
  | nil => intro lvl it h; simp [collectLeaves] at h
  | cons hd tl ih =>
    intro lvl it h
    match hd with
    | .enterLoop s => exact ih (lvl + 1) it h
    | .leaveLoop s =>
      match lvl with
      | 0 => simp [collectLeaves] at h
      | l0 + 1 => exact ih l0 it h
    | .barrier =>
      rcases List.mem_cons.mp h with h | h
      · exact Or.inl h
      · exact ih lvl it h
    | .runInstruction insnId =>
      rcases List.mem_cons.mp h with h | h
      · exact Or.inr ⟨insnId, h⟩
      · exact ih lvl it h

/-- Under an in-range, non-`LeaveLoop` root, the enumerated leaves are only
`Barrier`/`RunInstruction` items. -/
theorem subSchedLeaves_leaves_only (schedule : List SchedItem) (i : Nat)
    (it0 : SchedItem) (h0 : schedule.get? i = some it0)
    (hnl : it0.isLeaveLoop = false) :
    ∀ it ∈ subSchedLeaves schedule i,
      it = .barrier ∨ ∃ insnId, it = .runInstruction insnId := by
  intro it h
  unfold subSchedLeaves at h
  rw [h0] at h
  match it0, hnl with
  | .enterLoop s, _ => exact collectLeaves_leaves_only _ 0 it h
  | .barrier, _ =>
    rcases List.mem_cons.mp h with h | h
    · exact Or.inl h
    · simp at h
  | .runInstruction insnId, _ =>
    rcases List.mem_cons.mp h with h | h
    · exact Or.inr ⟨insnId, h⟩
    · simp at h

/-- On leaf items, `leafPredsOf` succeeds and returns `leafPredSet`. -/
theorem leafPredsOf_ok (k : Kernel) (it : SchedItem)
    (h : it = .barrier ∨ ∃ insnId, it = .runInstruction insnId) :
    leafPredsOf k it = .ok (leafPredSet k it) := by
  rcases h with h | ⟨insnId, h⟩ <;> subst h <;> rfl

/-- The accumulating fold of `get_required_predicates`, specialized to a
run that has already seen a first leaf: over leaf items it never fails and
computes the running intersection. -/
theorem getReq_fold_some (k : Kernel) :
    ∀ (l : List SchedItem)
      (hl : ∀ it ∈ l, it = .barrier ∨ ∃ insnId, it = .runInstruction insnId)
      (s : Finset String),
      (l.foldlM (fun acc it => do
          let p ← leafPredsOf k it
          match acc with
          | none => pure (some p)
          | some r => pure (some (r ∩ p))) (some s)
        : Except PyErr (Option (Finset String))) =
        .ok (some (l.foldl (fun r it => r ∩ leafPredSet k it) s)) := by
  intro l
  induction l with
  | nil => intro _ s; rfl
  | cons hd tl ih =>
    intro hl s
    have hhd := leafPredsOf_ok k hd (hl hd (List.mem_cons_self _ _))
    simp only [List.foldlM_cons, List.foldl_cons, hhd]
    exact ih (fun it h => hl it (List.mem_cons_of_mem _ h)) (s ∩ leafPredSet k hd)

/-- Membership in the running-intersection fold. -/
theorem mem_foldl_inter (k : Kernel) :
    ∀ (l : List SchedItem) (s : Finset String) (p : String),
      (p ∈ l.foldl (fun r it => r ∩ leafPredSet k it) s ↔
        (p ∈ s ∧ ∀ it ∈ l, p ∈ leafPredSet k it)) := by
  intro l
  induction l with
  | nil => intro s p; simp
  | cons hd tl ih =>
    intro s p
    simp only [List.foldl_cons, ih, Finset.mem_inter, List.mem_cons]
    constructor
    · rintro ⟨⟨h1, h2⟩, h3⟩
      refine ⟨h1, ?_⟩
      intro it h
      rcases h with h | h
      · subst h; exact h2
      · exact h3 it h
    · rintro ⟨h1, h2⟩
      exact ⟨⟨h1, h2 hd (Or.inl rfl)⟩, fun it h => h2 it (Or.inr h)⟩

/-- **C5** (amended).  `get_required_predicates` returns the intersection of
the predicate sets of all leaves of the subtree (each `Barrier` contributing
the empty set, so any barrier in the subtree makes the result empty) — but
for a subtree with no leaves it returns `None`, not the empty set: the
accumulator starts as `None` and is only replaced once a leaf is seen. -/
theorem get_required_predicates_spec (k : Kernel) (i : Nat)
    (hroot : ∃ it, k.schedule.get? i = some it ∧ it.isLeaveLoop = false) :
    ∃ r, getRequiredPredicates k i = .ok r ∧
      ((r = none) ↔ subSchedLeaves k.schedule i = []) ∧
      (∀ s, r = some s →
        ∀ p, (p ∈ s ↔ ∀ it ∈ subSchedLeaves k.schedule i, p ∈ leafPredSet k it)) ∧
      (SchedItem.barrier ∈ subSchedLeaves k.schedule i → r = some ∅) := by
  obtain ⟨it0, h0, hnl⟩ := hroot
  have hleaves := subSchedLeaves_leaves_only k.schedule i it0 h0 hnl
  unfold getRequiredPredicates
  cases hls : subSchedLeaves k.schedule i with
  | nil =>
    refine ⟨none, rfl, by simp, ?_, ?_⟩
    · intro s hs
      exact absurd hs (by simp)
    · intro hb
      simp at hb
  | cons l0 ls =>
    rw [hls] at hleaves
    have h0leaf := hleaves l0 (List.mem_cons_self _ _)
    have hrest : ∀ it ∈ ls, it = .barrier ∨ ∃ insnId, it = .runInstruction insnId :=
      fun it h => hleaves it (List.mem_cons_of_mem _ h)
    have hfold := getReq_fold_some k ls hrest (leafPredSet k l0)
    refine ⟨some (ls.foldl (fun r it => r ∩ leafPredSet k it) (leafPredSet k l0)),
      ?_, by simp, ?_, ?_⟩
    · simp only [List.foldlM_cons, leafPredsOf_ok k l0 h0leaf]
      exact hfold
    · intro s hs p
      rw [Option.some_inj] at hs
      rw [← hs, mem_foldl_inter]
      constructor
      · rintro ⟨h1, h2⟩ it h
        rcases List.mem_cons.mp h with h | h
        · subst h; exact h1
        · exact h2 it h
      · intro h
        exact ⟨h l0 (List.mem_cons_self _ _), fun it h2 => h it (List.mem_cons_of_mem _ h2)⟩
    · intro hb
      congr 1
      apply Finset.eq_empty_iff_forall_not_mem.mpr
      intro p hp
      have hmem := (mem_foldl_inter k ls (leafPredSet k l0) p).mp hp
      have hall : ∀ it ∈ l0 :: ls, p ∈ leafPredSet k it := by
        intro it h
        rcases List.mem_cons.mp h with h | h
        · subst h; exact hmem.1
        · exact hmem.2 it h
      have hbar := hall .barrier hb
      simp [leafPredSet] at hbar

/-- A kernel whose schedule is a single empty loop: the subtree at index 0
encloses no leaves. -/
def cexK5 : Kernel :=
  { schedule := [.enterLoop "i", .leaveLoop "i"]
    inameTags := []
    insnPreds := fun _ => ∅ }

/-- **C5** counterexample.  On a subtree with no leaves
`get_required_predicates` returns Python `None` (the untouched accumulator),
not the empty predicate set the claim promises. -/
theorem get_required_predicates_empty_cex :
    getRequiredPredicates cexK5 0 = .ok none ∧
      ∀ s : Finset String, getRequiredPredicates cexK5 0 ≠ .ok (some s) := by
  refine ⟨rfl, fun s h => ?_⟩
  rw [show getRequiredPredicates cexK5 0 = Except.ok none from rfl] at h
  exact Option.noConfusion (Except.ok.inj h)

/-- A kernel for the C5 witness: a loop enclosing one predicated instruction
and a barrier. -/
def witK5 : Kernel :=
  { schedule := [.enterLoop "i", .runInstruction "a", .barrier, .leaveLoop "i"]
    inameTags := []
    insnPreds := fun insnId => if insnId = "a" then {"P"} else ∅ }

/-- Witness for **C5**: the concrete subtree has leaves, so a predicate set
is returned, and the barrier leaf forces it to be empty. -/
theorem get_required_predicates_spec_witness :
    ∃ r, getRequiredPredicates witK5 0 = .ok r ∧
      ((r = none) ↔ subSchedLeaves witK5.schedule 0 = []) ∧
      (∀ s, r = some s →
        ∀ p, (p ∈ s ↔ ∀ it ∈ subSchedLeaves witK5.schedule 0, p ∈ leafPredSet witK5 it)) ∧
      (SchedItem.barrier ∈ subSchedLeaves witK5.schedule 0 → r = some ∅) :=
  get_required_predicates_spec witK5 0 ⟨.enterLoop "i", rfl, rfl⟩

/-! ## The hoist search: candidate sets and recorded options -/

/-- The running intersection the hoist-search loop carries, replayed from
candidate length `cgl` up to and including candidate length `ℓ`, starting
from the value `s`: each length in between that is not in `done` contributes
an intersection with its entry's set (`loopy/codegen/control.py`, lines
279–287); lengths in `done` contribute nothing, exactly as the source's
`continue` skips the updates. -/
def accumFrom (get : ScheduleIndexInfo → Finset String)
    (entries : List ScheduleIndexInfo) (done : Finset Nat)
    (cgl ℓ : Nat) (s : Finset String) : Finset String :=
  if h : cgl ≤ ℓ then
    accumFrom get entries done (cgl + 1) ℓ
      (if cgl ∈ done then s else s ∩ get (getEntry entries (cgl - 1)))
  else s
termination_by ℓ + 1 - cgl
decreasing_by omega

theorem accumFrom_stop (get : ScheduleIndexInfo → Finset String)
    (entries : List ScheduleIndexInfo) (done : Finset Nat)
    (cgl ℓ : Nat) (s : Finset String) (h : ℓ < cgl) :
    accumFrom get entries done cgl ℓ s = s := by
  rw [accumFrom, dif_neg (by omega)]

theorem accumFrom_step (get : ScheduleIndexInfo → Finset String)
    (entries : List ScheduleIndexInfo) (done : Finset Nat)
    (cgl ℓ : Nat) (s : Finset String) (h : cgl ≤ ℓ) :
    accumFrom get entries done cgl ℓ s =
      accumFrom get entries done (cgl + 1) ℓ
        (if cgl ∈ done then s else s ∩ get (getEntry entries (cgl - 1))) := by
  rw [accumFrom, dif_pos h]

theorem accumFrom_self (get : ScheduleIndexInfo → Finset String)
    (entries : List ScheduleIndexInfo) (done : Finset Nat)
    (cgl : Nat) (s : Finset String) (h : cgl ∉ done) :
    accumFrom get entries done cgl cgl s = s ∩ get (getEntry entries (cgl - 1)) := by
  rw [accumFrom_step get entries done cgl cgl s (le_refl _), if_neg h,
    accumFrom_stop get entries done (cgl + 1) cgl _ (by omega)]

/-- The outstanding-predicate intersection of the candidate group of length
`ℓ`, replayed from the loop's starting value. -/
def candidatePreds (entries : List ScheduleIndexInfo) (done : Finset Nat)
    (cgl ℓ : Nat) (preds : Finset String) : Finset String :=
  accumFrom (fun si => si.requiredPredicates) entries done cgl ℓ preds

/-- The bounds checks of the candidate group of length `ℓ`, replayed from the
loop's starting admissible-iname value. -/
def candidateBounds {Cns ISet Code : Type} (k : Kernel)
    (ops : CodegenOps Cns ISet Code) (implDom : ISet)
    (entries : List ScheduleIndexInfo) (done : Finset Nat)
    (cgl ℓ : Nat) (inames : Finset String) : Option (List Cns) :=
  boundsChecksAt k ops implDom entries
    (accumFrom (fun si => si.admissibleCondInames) entries done cgl ℓ inames) ℓ

theorem hoistLoop_eq_out {Cns ISet Code : Type} [DecidableEq Cns] (k : Kernel)
    (ops : CodegenOps Cns ISet Code) (implDom : ISet)
    (entries : List ScheduleIndexInfo) (done : Finset Nat)
    (steps cgl : Nat) (inames preds : Finset String)
    (h : ¬ (1 ≤ cgl ∧ cgl ≤ entries.length)) :
    hoistLoop k ops implDom entries done steps cgl inames preds = [] := by
  cases steps with
  | zero => rw [hoistLoop]
  | succ m => rw [hoistLoop, if_neg h]

theorem hoistLoop_eq_done {Cns ISet Code : Type} [DecidableEq Cns] (k : Kernel)
    (ops : CodegenOps Cns ISet Code) (implDom : ISet)
    (entries : List ScheduleIndexInfo) (done : Finset Nat)
    (steps cgl : Nat) (inames preds : Finset String)
    (h : 1 ≤ cgl ∧ cgl ≤ entries.length) (hdone : cgl ∈ done) :
    hoistLoop k ops implDom entries done (steps + 1) cgl inames preds =
      hoistLoop k ops implDom entries done steps (cgl + 1) inames preds := by
  rw [hoistLoop, if_pos h, if_pos hdone]

theorem hoistLoop_eq_active {Cns ISet Code : Type} [DecidableEq Cns] (k : Kernel)
    (ops : CodegenOps Cns ISet Code) (implDom : ISet)
    (entries : List ScheduleIndexInfo) (done : Finset Nat)
    (steps cgl : Nat) (inames preds : Finset String)
    (h : 1 ≤ cgl ∧ cgl ≤ entries.length) (hdone : cgl ∉ done) :
    hoistLoop k ops implDom entries done (steps + 1) cgl inames preds =
      (if boundsChecksAt k ops implDom entries
            (inames ∩ (getEntry entries (cgl - 1)).admissibleCondInames) cgl ≠ some [] ∨
          (preds ∩ (getEntry entries (cgl - 1)).requiredPredicates) ≠ ∅ ∨ cgl = 1
       then (cgl,
              boundsChecksAt k ops implDom entries
                (inames ∩ (getEntry entries (cgl - 1)).admissibleCondInames) cgl,
              preds ∩ (getEntry entries (cgl - 1)).requiredPredicates) ::
            hoistLoop k ops implDom entries done steps (cgl + 1)
              (inames ∩ (getEntry entries (cgl - 1)).admissibleCondInames)
              (preds ∩ (getEntry entries (cgl - 1)).requiredPredicates)
       else hoistLoop k ops implDom entries done steps (cgl + 1)
              (inames ∩ (getEntry entries (cgl - 1)).admissibleCondInames)
              (preds ∩ (getEntry entries (cgl - 1)).requiredPredicates)) := by
  rw [hoistLoop, if_pos h, if_neg hdone]

/-- Characterization of the options recorded by the hoist-search loop, from
any starting candidate length: `(ℓ, bc, p)` is recorded exactly when `ℓ` is a
candidate length in range that is not skipped, `p` and `bc` are the replayed
intersections at `ℓ`, and the option is usable (a bounds check was found or
is infeasible, or an outstanding predicate remains, or `ℓ = 1`). -/
theorem hoistLoop_mem_iff {Cns ISet Code : Type} [DecidableEq Cns] (k : Kernel)
    (ops : CodegenOps Cns ISet Code) (implDom : ISet)
    (entries : List ScheduleIndexInfo) (done : Finset Nat) :
    ∀ (steps cgl : Nat) (inames preds : Finset String),
      entries.length + 1 - cgl ≤ steps → 1 ≤ cgl →
      ∀ (ℓ : Nat) (bc : Option (List Cns)) (p : Finset String),
      ((ℓ, bc, p) ∈ hoistLoop k ops implDom entries done steps cgl inames preds ↔
        (cgl ≤ ℓ ∧ ℓ ≤ entries.length ∧ ℓ ∉ done ∧
          p = candidatePreds entries done cgl ℓ preds ∧
          bc = candidateBounds k ops implDom entries done cgl ℓ inames ∧
          (bc ≠ some [] ∨ p ≠ ∅ ∨ ℓ = 1))) := by
  intro steps
  induction steps with
  | zero =>
    intro cgl inames preds hn hcgl ℓ bc p
    rw [hoistLoop]
    simp only [List.not_mem_nil, false_iff]
    rintro ⟨h1, h2, _⟩
    omega
  | succ m ih =>
    intro cgl inames preds hn hcgl ℓ bc p
    by_cases hle : cgl ≤ entries.length
    case neg =>
      rw [hoistLoop_eq_out k ops implDom entries done (m + 1) cgl inames preds (by omega)]
      simp only [List.not_mem_nil, false_iff]
      rintro ⟨h1, h2, _⟩
      omega
    case pos =>
      by_cases hdone : cgl ∈ done
      case pos =>
        rw [hoistLoop_eq_done k ops implDom entries done m cgl inames preds ⟨hcgl, hle⟩ hdone,
          ih (cgl + 1) inames preds (by omega) (by omega)]
        constructor
        · rintro ⟨h1, h2, h3, h4, h5, h6⟩
          refine ⟨by omega, h2, h3, ?_, ?_, h6⟩
          · rw [candidatePreds, accumFrom_step _ _ _ _ _ _ (by omega), if_pos hdone]
            exact h4
          · rw [candidateBounds, accumFrom_step _ _ _ _ _ _ (by omega), if_pos hdone]
            exact h5
        · rintro ⟨h1, h2, h3, h4, h5, h6⟩
          have hne : ℓ ≠ cgl := fun he => h3 (he ▸ hdone)
          refine ⟨by omega, h2, h3, ?_, ?_, h6⟩
          · rw [candidatePreds, accumFrom_step _ _ _ _ _ _ (by omega), if_pos hdone] at h4
            exact h4
          · rw [candidateBounds, accumFrom_step _ _ _ _ _ _ (by omega), if_pos hdone] at h5
            exact h5
      case neg =>
        rw [hoistLoop_eq_active k ops implDom entries done m cgl inames preds ⟨hcgl, hle⟩ hdone]
        have hstep := ih (cgl + 1)
          (inames ∩ (getEntry entries (cgl - 1)).admissibleCondInames)
          (preds ∩ (getEntry entries (cgl - 1)).requiredPredicates)
          (by omega) (by omega)
        have hpeq : ∀ ℓ2, cgl + 1 ≤ ℓ2 →
            candidatePreds entries done cgl ℓ2 preds =
              candidatePreds entries done (cgl + 1) ℓ2
                (preds ∩ (getEntry entries (cgl - 1)).requiredPredicates) := by
          intro ℓ2 h2
          rw [candidatePreds, candidatePreds,
            accumFrom_step _ _ _ _ _ _ (by omega), if_neg hdone]
        have hbeq : ∀ ℓ2, cgl + 1 ≤ ℓ2 →
            candidateBounds k ops implDom entries done cgl ℓ2 inames =
              candidateBounds k ops implDom entries done (cgl + 1) ℓ2
                (inames ∩ (getEntry entries (cgl - 1)).admissibleCondInames) := by
          intro ℓ2 h2
          rw [candidateBounds, candidateBounds,
            accumFrom_step _ _ _ _ _ _ (by omega), if_neg hdone]
        have hpself : candidatePreds entries done cgl cgl preds =
            preds ∩ (getEntry entries (cgl - 1)).requiredPredicates := by
          rw [candidatePreds, accumFrom_self _ _ _ _ _ hdone]
        have hbself : candidateBounds k ops implDom entries done cgl cgl inames =
            boundsChecksAt k ops implDom entries
              (inames ∩ (getEntry entries (cgl - 1)).admissibleCondInames) cgl := by
          rw [candidateBounds, accumFrom_self _ _ _ _ _ hdone]
        by_cases hcond : boundsChecksAt k ops implDom entries
              (inames ∩ (getEntry entries (cgl - 1)).admissibleCondInames) cgl ≠ some [] ∨
            (preds ∩ (getEntry entries (cgl - 1)).requiredPredicates) ≠ ∅ ∨ cgl = 1
        case pos =>
          rw [if_pos hcond]
          constructor
          · intro hmem
            rcases List.mem_cons.mp hmem with heq | hmem2
            · rw [Prod.mk.injEq, Prod.mk.injEq] at heq
              obtain ⟨he1, he2, he3⟩ := heq
              subst he1
              subst he2
              subst he3
              exact ⟨le_refl _, hle, hdone, by rw [hpself], by rw [hbself], hcond⟩
            · obtain ⟨h1, h2, h3, h4, h5, h6⟩ := (hstep ℓ bc p).mp hmem2
              refine ⟨by omega, h2, h3, ?_, ?_, h6⟩
              · rw [hpeq ℓ (by omega)]
                exact h4
              · rw [hbeq ℓ (by omega)]
                exact h5
          · rintro ⟨h1, h2, h3, h4, h5, h6⟩
            by_cases hl : ℓ = cgl
            · subst hl
              apply List.mem_cons.mpr
              left
              rw [hpself] at h4
              rw [hbself] at h5
              rw [h4, h5]
            · apply List.mem_cons.mpr
              right
              apply (hstep ℓ bc p).mpr
              refine ⟨by omega, h2, h3, ?_, ?_, h6⟩
              · rw [← hpeq ℓ (by omega)]
                exact h4
              · rw [← hbeq ℓ (by omega)]
                exact h5
        case neg =>
          rw [if_neg hcond, hstep ℓ bc p]
          constructor
          · rintro ⟨h1, h2, h3, h4, h5, h6⟩
            refine ⟨by omega, h2, h3, ?_, ?_, h6⟩
            · rw [hpeq ℓ (by omega)]
              exact h4
            · rw [hbeq ℓ (by omega)]
              exact h5
          · rintro ⟨h1, h2, h3, h4, h5, h6⟩
            by_cases hl : ℓ = cgl
            · exfalso
              subst hl
              apply hcond
              rcases h6 with h6 | h6 | h6
              · left
                rw [← hbself, ← h5]
                exact h6
              · right; left
                rw [← hpself, ← h4]
                exact h6
              · right; right
                exact h6
            · refine ⟨by omega, h2, h3, ?_, ?_, h6⟩
              · rw [← hpeq ℓ (by omega)]
                exact h4
              · rw [← hbeq ℓ (by omega)]
                exact h5

theorem pickMax_eq_none_iff {α : Type} (l : List (Nat × α)) :
    pickMax l = none ↔ l = [] := by
  cases l with
  | nil => simp [pickMax]
  | cons h t =>
    rw [pickMax]
    split
    · simp
    · split <;> simp

/-- `pickMax` returns a member of the list with the largest first component
(the candidate length). -/
theorem pickMax_spec {α : Type} (l : List (Nat × α)) (m : Nat × α)
    (h : pickMax l = some m) : m ∈ l ∧ ∀ x ∈ l, x.1 ≤ m.1 := by
  induction l generalizing m with
  | nil => simp [pickMax] at h
  | cons hd t ih =>
    rw [pickMax] at h
    cases hp : pickMax t with
    | none =>
      simp only [hp] at h
      have ht : t = [] := (pickMax_eq_none_iff t).mp hp
      subst ht
      obtain rfl : hd = m := Option.some_inj.mp h
      refine ⟨List.mem_cons_self _ _, ?_⟩
      intro x hx
      rcases List.mem_cons.mp hx with hx | hx
      · subst hx; exact le_refl _
      · simp at hx
    | some m2 =>
      simp only [hp] at h
      obtain ⟨hmem, hle⟩ := ih m2 hp
      by_cases hlt : hd.1 < m2.1
      · rw [if_pos hlt] at h
        obtain rfl : m2 = m := Option.some_inj.mp h
        refine ⟨List.mem_cons_of_mem _ hmem, ?_⟩
        intro x hx
        rcases List.mem_cons.mp hx with hx | hx
        · subst hx; omega
        · exact hle x hx
      · rw [if_neg hlt] at h
        obtain rfl : hd = m := Option.some_inj.mp h
        refine ⟨List.mem_cons_self _ _, ?_⟩
        intro x hx
        rcases List.mem_cons.mp hx with hx | hx
        · subst hx; exact le_refl _
        · have := hle x hx; omega

theorem appendGroup_ne_none {Code : Type} (g t : Option (Except PyErr (List Code)))
    (hg : g ≠ none) (ht : t ≠ none) : appendGroup g t ≠ none := by
  match g, hg with
  | some (.error e), _ => simp [appendGroup]
  | some (.ok code), _ =>
    match t, ht with
    | some (.error e2), _ => simp [appendGroup]
    | some (.ok tail), _ => simp [appendGroup]

/-- **C1**.  For a non-empty sibling list and a `done_group_lengths` set not
containing 1, the hoist search records an option for exactly the candidate
lengths from 1 to the entry count, skipping `done_group_lengths`, whose
replayed prefix data is usable — a non-empty bounds-check list, an infeasible
bounds signal (`None`), a non-empty outstanding predicate set, or length 1;
the recorded list is never empty (length 1 always qualifies), and the chosen
option (`max(found_hoists)`) is a recorded option of maximal candidate
length. -/
theorem build_insn_group_hoist_choice {Cns ISet Code : Type} [DecidableEq Cns]
    (k : Kernel) (ops : CodegenOps Cns ISet Code) (st : CodegenState ISet)
    (e0 : ScheduleIndexInfo) (rest : List ScheduleIndexInfo) (done : Finset Nat)
    (h1 : 1 ∉ done) :
    (∀ ℓ bc p, ((ℓ, bc, p) ∈ foundHoists k ops st (e0 :: rest) done ↔
      (1 ≤ ℓ ∧ ℓ ≤ (e0 :: rest).length ∧ ℓ ∉ done ∧
        p = candidatePreds (e0 :: rest) done 1 ℓ
              (e0.requiredPredicates \ st.implementedPredicates) ∧
        bc = candidateBounds k ops st.implementedDomain (e0 :: rest) done 1 ℓ
              e0.admissibleCondInames ∧
        (bc ≠ some [] ∨ p ≠ ∅ ∨ ℓ = 1)))) ∧
    foundHoists k ops st (e0 :: rest) done ≠ [] ∧
    (∃ m, pickMax (foundHoists k ops st (e0 :: rest) done) = some m ∧
      m ∈ foundHoists k ops st (e0 :: rest) done ∧
      ∀ x ∈ foundHoists k ops st (e0 :: rest) done, x.1 ≤ m.1) := by
  have hiff : ∀ (ℓ : Nat) (bc : Option (List Cns)) (p : Finset String),
      ((ℓ, bc, p) ∈ foundHoists k ops st (e0 :: rest) done ↔
        (1 ≤ ℓ ∧ ℓ ≤ (e0 :: rest).length ∧ ℓ ∉ done ∧
          p = candidatePreds (e0 :: rest) done 1 ℓ
                (e0.requiredPredicates \ st.implementedPredicates) ∧
          bc = candidateBounds k ops st.implementedDomain (e0 :: rest) done 1 ℓ
                e0.admissibleCondInames ∧
          (bc ≠ some [] ∨ p ≠ ∅ ∨ ℓ = 1))) := by
    intro ℓ bc p
    have := hoistLoop_mem_iff k ops st.implementedDomain (e0 :: rest) done
      ((e0 :: rest).length) 1 e0.admissibleCondInames
      (e0.requiredPredicates \ st.implementedPredicates) (by omega) (le_refl 1) ℓ bc p
    simpa [foundHoists] using this
  have hone : (1, candidateBounds k ops st.implementedDomain (e0 :: rest) done 1 1
        e0.admissibleCondInames,
      candidatePreds (e0 :: rest) done 1 1
        (e0.requiredPredicates \ st.implementedPredicates)) ∈
      foundHoists k ops st (e0 :: rest) done :=
    (hiff 1 _ _).mpr ⟨le_refl 1, by simp, h1, rfl, rfl, Or.inr (Or.inr rfl)⟩
  have hne : foundHoists k ops st (e0 :: rest) done ≠ [] := by
    intro hnil
    rw [hnil] at hone
    simp at hone
  refine ⟨hiff, hne, ?_⟩
  cases hp : pickMax (foundHoists k ops st (e0 :: rest) done) with
  | none => exact absurd ((pickMax_eq_none_iff _).mp hp) hne
  | some m => exact ⟨m, rfl, pickMax_spec _ m hp⟩

/-- If `pickMax` chooses `(ℓ, bc, p)` from the recorded hoists, then `ℓ` is a
candidate length: at least 1, at most the entry count, and not in
`done_group_lengths`. -/
theorem pickMax_foundHoists_bounds {Cns ISet Code : Type} [DecidableEq Cns]
    (k : Kernel) (ops : CodegenOps Cns ISet Code) (st : CodegenState ISet)
    (entries : List ScheduleIndexInfo) (done : Finset Nat)
    (ℓ : Nat) (bc : Option (List Cns)) (p : Finset String)
    (h : pickMax (foundHoists k ops st entries done) = some (ℓ, bc, p)) :
    1 ≤ ℓ ∧ ℓ ≤ entries.length ∧ ℓ ∉ done := by
  have hmem := (pickMax_spec _ _ h).1
  match entries with
  | [] => simp [foundHoists] at hmem
  | e0 :: rest =>
    have hiff := hoistLoop_mem_iff k ops st.implementedDomain (e0 :: rest) done
      ((e0 :: rest).length) 1 e0.admissibleCondInames
      (e0.requiredPredicates \ st.implementedPredicates) (by omega) (le_refl 1) ℓ bc p
    rw [foundHoists] at hmem
    obtain ⟨h1, h2, h3, _⟩ := hiff.mp hmem
    exact ⟨h1, h2, h3⟩

/-- Fuel bound for `buildInsnGroupF`: any fuel exceeding twice the entry
count (plus one when the full length is still an admissible group length)
is enough to avoid running out. -/
theorem buildInsnGroupF_fuel_sufficient {Cns ISet Code : Type} [DecidableEq Cns]
    (k : Kernel) (ops : CodegenOps Cns ISet Code) :
    ∀ (fuel : Nat) (entries : List ScheduleIndexInfo) (st : CodegenState ISet)
      (done : Finset Nat),
      2 * entries.length + (if entries.length ∈ done then 0 else 1) < fuel →
      buildInsnGroupF k ops fuel entries st done ≠ none := by
  intro fuel
  induction fuel with
  | zero =>
    intro entries st done h
    exact absurd h (by omega)
  | succ n ih =>
    intro entries st done h
    match entries with
    | [] => simp [buildInsnGroupF]
    | e0 :: rest =>
      cases hpick : pickMax (foundHoists k ops st (e0 :: rest) done) with
      | none => simp [buildInsnGroupF, hpick]
      | some m =>
        obtain ⟨ℓ, bc, p⟩ := m
        obtain ⟨hl1, hl2, hl3⟩ := pickMax_foundHoists_bounds k ops st (e0 :: rest)
          done ℓ bc p hpick
        cases bc with
        | none => simp [buildInsnGroupF, hpick]
        | some cnss =>
          simp only [buildInsnGroupF, hpick]
          have hlen2 : 2 * ℓ < n := by
            by_cases hld : (e0 :: rest).length ∈ done
            · rw [if_pos hld] at h
              have hne : ℓ ≠ (e0 :: rest).length := fun he => hl3 (he ▸ hld)
              omega
            · rw [if_neg hld] at h
              omega
          apply appendGroup_ne_none
          · by_cases hempty : checkSetIsEmpty ops cnss = true
            · rw [if_pos hempty]
              simp
            · rw [if_neg hempty]
              by_cases hgl : ℓ = 1
              · rw [if_pos hgl]
                split
                · simp_all
                · simp
                · split <;> simp
              · rw [if_neg hgl]
                have htl : ((e0 :: rest).take ℓ).length = ℓ := by
                  rw [List.length_take]
                  omega
                have hinner := ih ((e0 :: rest).take ℓ)
                  (narrowedState ops st cnss p) (insert ℓ done)
                  (by rw [htl, if_pos (Finset.mem_insert_self ℓ done)]; omega)
                cases hcall : buildInsnGroupF k ops n ((e0 :: rest).take ℓ)
                    (narrowedState ops st cnss p) (insert ℓ done) with
                | none => exact absurd hcall hinner
                | some r =>
                  cases r with
                  | error e => simp
                  | ok code =>
                    split
                    · simp_all
                    · simp
                    · split <;> simp
          · apply ih
            rw [List.length_drop, if_neg (Finset.not_mem_empty _)]
            omega

/-- **C6**.  `build_insn_group` terminates on every finite sibling list and
every `done_group_lengths` set: a call-depth budget of twice the entry count
plus two is always enough — the fueled embedding never runs out (each
recursive call either shrinks the entry list or grows `done_group_lengths`
below the entry count bound). -/
theorem build_insn_group_terminates {Cns ISet Code : Type} [DecidableEq Cns]
    (k : Kernel) (ops : CodegenOps Cns ISet Code)
    (entries : List ScheduleIndexInfo) (st : CodegenState ISet)
    (done : Finset Nat) :
    ∃ r, buildInsnGroupF k ops (2 * entries.length + 2) entries st done = some r := by
  have hfuel := buildInsnGroupF_fuel_sufficient k ops (2 * entries.length + 2)
    entries st done (by split <;> omega)
  cases hr : buildInsnGroupF k ops (2 * entries.length + 2) entries st done with
  | none => exact absurd hr hfuel
  | some r => exact ⟨r, rfl⟩

/-- **C2**.  Once a hoist group is chosen, the generated output is the
group's code followed by the code for the remaining siblings, and the
remaining siblings are always processed with the caller's original state and
a reset `done_group_lengths` — whether or not the group was dead; when the
chosen bounds checks combine (universe set per constraint, then
intersection) into a provably empty set, the group contributes no code at
all. -/
theorem build_insn_group_infeasible_group {Cns ISet Code : Type} [DecidableEq Cns]
    (k : Kernel) (ops : CodegenOps Cns ISet Code) (st : CodegenState ISet)
    (e0 : ScheduleIndexInfo) (rest : List ScheduleIndexInfo) (done : Finset Nat)
    (fuel : Nat) (groupLength : Nat) (cnss : List Cns) (p : Finset String)
    (hpick : pickMax (foundHoists k ops st (e0 :: rest) done) =
      some (groupLength, some cnss, p)) :
    ∃ g, buildInsnGroupF k ops (fuel + 1) (e0 :: rest) st done =
        appendGroup g
          (buildInsnGroupF k ops fuel ((e0 :: rest).drop groupLength) st ∅) ∧
      (∀ cs, combineChecks ops cnss = some cs → ops.isEmptySet cs = true →
        g = some (.ok [])) := by
  refine ⟨(if checkSetIsEmpty ops cnss then some (.ok [])
      else
        match
          (if groupLength = 1 then
             some (Except.ok
               (match ops.genLeaf e0.scheduleIndex (narrowedState ops st cnss p) with
               | none => []
               | some c => [c]))
           else
             buildInsnGroupF k ops fuel ((e0 :: rest).take groupLength)
               (narrowedState ops st cnss p)
               (insert groupLength done)) with
        | none => none
        | some (.error e) => some (.error e)
        | some (.ok code) =>
          if cnss ≠ [] ∨ p ≠ ∅ then
            some (.ok [ops.wrapInIf
              (cnss.map ops.cnsToCode ++ p.sort (· ≤ ·))
              (ops.genCodeBlock code)])
          else some (.ok code)), ?_, ?_⟩
  · simp only [buildInsnGroupF, hpick]
  · intro cs hcs hempty
    have hce : checkSetIsEmpty ops cnss = true := by
      rw [checkSetIsEmpty, hcs]
      exact hempty
    rw [if_pos hce]

/-- `(s \ t) ∩ u = (s ∩ u) \ t` for finite sets of predicate names. -/
theorem sdiff_inter_comm (s t u : Finset String) : (s \ t) ∩ u = (s ∩ u) \ t := by
  ext x
  simp only [Finset.mem_inter, Finset.mem_sdiff]
  tauto

/-- Removing the implemented predicates from the accumulator start commutes
with the candidate-set replay: the replay only intersects. -/
theorem accumFrom_sdiff (get : ScheduleIndexInfo → Finset String)
    (entries : List ScheduleIndexInfo) (done : Finset Nat) :
    ∀ (n cgl ℓ : Nat) (s t : Finset String), ℓ + 1 - cgl ≤ n →
      accumFrom get entries done cgl ℓ (s \ t) =
        accumFrom get entries done cgl ℓ s \ t := by
  intro n
  induction n with
  | zero =>
    intro cgl ℓ s t hn
    rw [accumFrom_stop _ _ _ _ _ _ (by omega), accumFrom_stop _ _ _ _ _ _ (by omega)]
  | succ m ih =>
    intro cgl ℓ s t hn
    by_cases hle : cgl ≤ ℓ
    · rw [accumFrom_step _ _ _ _ _ _ hle, accumFrom_step _ _ _ _ _ s hle]
      by_cases hd : cgl ∈ done
      · rw [if_pos hd, if_pos hd]
        exact ih (cgl + 1) ℓ s t (by omega)
      · rw [if_neg hd, if_neg hd, sdiff_inter_comm]
        exact ih (cgl + 1) ℓ _ t (by omega)
    · rw [accumFrom_stop _ _ _ _ _ _ (by omega), accumFrom_stop _ _ _ _ _ _ (by omega)]

/-- **C7**.  The predicate set hoisted with the chosen group is exactly the
group's (replayed) required predicates minus the caller's already implemented
predicates; in particular it is disjoint from the implemented set, so no
already-enforced guard is emitted again; and the narrowed state handed to the
group's code carries the union of the old implemented predicates and the
hoisted ones. -/
theorem build_insn_group_new_predicates {Cns ISet Code : Type} [DecidableEq Cns]
    (k : Kernel) (ops : CodegenOps Cns ISet Code) (st : CodegenState ISet)
    (e0 : ScheduleIndexInfo) (rest : List ScheduleIndexInfo) (done : Finset Nat)
    (groupLength : Nat) (bc : Option (List Cns)) (p : Finset String)
    (hpick : pickMax (foundHoists k ops st (e0 :: rest) done) =
      some (groupLength, bc, p)) :
    p = candidatePreds (e0 :: rest) done 1 groupLength e0.requiredPredicates \
          st.implementedPredicates ∧
    Disjoint p st.implementedPredicates ∧
    (∀ cnss : List Cns, (narrowedState ops st cnss p).implementedPredicates =
      st.implementedPredicates ∪ p) := by
  have hmem := (pickMax_spec _ _ hpick).1
  rw [foundHoists] at hmem
  have hiff := hoistLoop_mem_iff k ops st.implementedDomain (e0 :: rest) done
    ((e0 :: rest).length) 1 e0.admissibleCondInames
    (e0.requiredPredicates \ st.implementedPredicates) (by omega) (le_refl 1)
    groupLength bc p
  obtain ⟨_, _, _, hp, _, _⟩ := hiff.mp hmem
  have hpeq : p = candidatePreds (e0 :: rest) done 1 groupLength
      e0.requiredPredicates \ st.implementedPredicates := by
    rw [hp, candidatePreds, candidatePreds,
      accumFrom_sdiff _ _ _ (groupLength + 1) 1 groupLength _ _ (by omega)]
  refine ⟨hpeq, ?_, ?_⟩
  · rw [hpeq]
    exact Finset.sdiff_disjoint
  · intro cnss
    rw [narrowedState]
    have hst2 : (match combineChecks ops cnss with
        | none => st
        | some cs => st.intersect ops.interSet cs).implementedPredicates =
        st.implementedPredicates := by
      cases combineChecks ops cnss <;> rfl
    by_cases hpne : p ≠ ∅
    · rw [if_pos hpne]
      simp only [hst2]
    · rw [if_neg hpne]
      push_neg at hpne
      rw [hst2, hpne, Finset.union_empty]

/-- Concrete collaborators for exercising the builder theorems on closed
inputs: a constraint is a number, an isl set is its list of points
(intersection filters one list by the other; the universe restricted by any
constraint is empty here, making every combined check set empty), and a code
block is a number. -/
def witOps : CodegenOps Nat (List Nat) Nat where
  usedInamesWithin := fun _ => {"i"}
  getBoundsChecks := fun _ _ => some [0]
  univWith := fun _ => []
  interSet := fun a b => a.filter (fun x => x ∈ b)
  isEmptySet := fun s => s.isEmpty
  genLeaf := fun _ _ => some 7
  cnsToCode := fun _ => "c"
  wrapInIf := fun _ c => c
  genCodeBlock := fun l => l.foldl (· + ·) 0

/-- A kernel with no tags: shared-hardware-axis removal keeps everything. -/
def witBuilderKernel : Kernel :=
  { schedule := [], inameTags := [], insnPreds := fun _ => ∅ }

/-- One sibling entry: schedule position 0, admissible iname `i`, one
required predicate `Q`. -/
def witEntry : ScheduleIndexInfo := ⟨0, {"i"}, {"Q"}⟩

/-- A codegen state with one domain point and no implemented predicates. -/
def witState : CodegenState (List Nat) := ⟨[0], ∅⟩

/-- Witness for **C1**: on the concrete one-entry input with empty
`done_group_lengths`, at least one hoist option is recorded. -/
theorem build_insn_group_hoist_choice_witness :
    foundHoists witBuilderKernel witOps witState [witEntry] ∅ ≠ [] :=
  (build_insn_group_hoist_choice witBuilderKernel witOps witState witEntry [] ∅
    (by decide)).2.1

/-- Witness for **C2**: on the concrete input the hoist `(1, some [0], Q)` is
chosen, its combined check set is empty, and the output splits into a group
part (empty, as the group is dead) and the tail processed with the original
state. -/
theorem build_insn_group_infeasible_group_witness :
    ∃ g, buildInsnGroupF witBuilderKernel witOps 2 [witEntry] witState ∅ =
        appendGroup g
          (buildInsnGroupF witBuilderKernel witOps 1 ([witEntry].drop 1) witState ∅) ∧
      (∀ cs, combineChecks witOps [0] = some cs → witOps.isEmptySet cs = true →
        g = some (.ok [])) :=
  build_insn_group_infeasible_group witBuilderKernel witOps witState witEntry [] ∅
    1 1 [0] {"Q"} (by decide)

/-- Witness for **C6**: the fuel bound is attained on a concrete input. -/
theorem build_insn_group_terminates_witness :
    ∃ r, buildInsnGroupF witBuilderKernel witOps (2 * [witEntry].length + 2)
      [witEntry] witState ∅ = some r :=
  build_insn_group_terminates witBuilderKernel witOps [witEntry] witState ∅

/-- Witness for **C7**: on the concrete input the chosen predicate set `Q` is
the outstanding required predicates, disjoint from the implemented set, and
the narrowed state implements their union. -/
theorem build_insn_group_new_predicates_witness :
    ({"Q"} : Finset String) =
        candidatePreds [witEntry] ∅ 1 1 witEntry.requiredPredicates \
          witState.implementedPredicates ∧
      Disjoint ({"Q"} : Finset String) witState.implementedPredicates ∧
      (∀ cnss : List Nat,
        (narrowedState witOps witState cnss {"Q"}).implementedPredicates =
          witState.implementedPredicates ∪ {"Q"}) :=
  build_insn_group_new_predicates witBuilderKernel witOps witState witEntry [] ∅
    1 (some [0]) {"Q"} (by decide)
